import Mathlib

/-!
Verification of the text-normalization engine of `src/app.py`
(`clean_text` and its helpers, lines 48-98).

Strings are modelled as `List Char`.  Python's string/regex primitives are
modelled at ASCII precision: `\w` is `[A-Za-z0-9_]`, `str.isupper`,
`str.isalnum`, `str.lower`, `str.upper` and `re.IGNORECASE` act on the
ASCII letters, and Python whitespace (`\s`, `str.split()`, `str.strip()`)
is the six ASCII whitespace characters.  `re.sub` with a string
replacement is modelled together with CPython's replacement-template
parser (`re/_parser.py`, `parse_template`), specialised to the patterns
built by `clean_text`, which have zero capture groups; `re.sub` with a
callable replacement (the `_repl_nonword` branch) performs no template
parsing.  A failure of the template parser is an `Except.error`, the
model of the `re.error` exception that `re.sub` raises.
-/

namespace App

/-- Python whitespace (`\s`, `str.split()`, `str.strip()`): the six ASCII
whitespace characters. -/
def pyIsSpace (c : Char) : Bool :=
  c == ' ' || c == '\t' || c == '\n' || c == '\x0b' || c == '\x0c' || c == '\r'

/-- A regex word character `\w` (ASCII): letter, digit or underscore. -/
def isWordChar (c : Char) : Bool :=
  c.isAlphanum || c == '_'

/-- Case-insensitive character comparison, the model of `re.IGNORECASE`
at ASCII precision. -/
def ciChar (a b : Char) : Bool :=
  a.toLower == b.toLower

/-- `ciPrefix t s`: the term `t` matches case-insensitively at the front
of `s`. -/
def ciPrefix : List Char → List Char → Bool
  | [], _ => true
  | _ :: _, [] => false
  | t :: ts, c :: cs => ciChar c t && ciPrefix ts cs

/-- `_repl_nonword` (src/app.py lines 72-76): the replacement emitted for
one match of a symbol term.  `rest` is the part of the string being
scanned that follows the match, so `rest.head?` is `m.string[m.end()]`;
`add_space` is true when that character exists and is alphanumeric, and a
single space is appended unless the replacement already ends in `' '`
(`repl.endswith(' ')`). -/
def repl_nonword (repl : List Char) (rest : List Char) : List Char :=
  let add_space : Bool := match rest.head? with
    | some d => d.isAlphanum
    | none => false
  repl ++ (if add_space && !(repl.getLast? == some ' ') then [' '] else [])

/-- Scanner for `re.sub(re.escape(term), _repl_nonword, s, flags=re.IGNORECASE)`
with a non-empty term `t :: ts`: a left-to-right, non-overlapping,
case-insensitive literal search.  `skip` counts characters of a match
that are still to be consumed after its replacement has been emitted. -/
def sub_symbol_go (t : Char) (ts repl : List Char) : Nat → List Char → List Char
  | _, [] => []
  | skip + 1, _ :: cs => sub_symbol_go t ts repl skip cs
  | 0, c :: cs =>
    if ciChar c t && ciPrefix ts cs then
      repl_nonword repl (cs.drop ts.length) ++ sub_symbol_go t ts repl ts.length cs
    else
      c :: sub_symbol_go t ts repl 0 cs

/-- `re.sub('', _repl_nonword, s)`: the empty pattern matches the empty
string at every position, including the end. -/
def sub_symbol_empty (repl : List Char) : List Char → List Char
  | [] => repl_nonword repl []
  | c :: cs => repl_nonword repl (c :: cs) ++ c :: sub_symbol_empty repl cs

/-- The symbol-term branch of `clean_text` (src/app.py line 77). -/
def sub_symbol (term repl s : List Char) : List Char :=
  match term with
  | [] => sub_symbol_empty repl s
  | t :: ts => sub_symbol_go t ts repl 0 s

/-- The `\b` assertion after a word-term match: end of string, or a
non-word character follows. -/
def boundary_after (rest : List Char) : Bool :=
  match rest.head? with
  | some d => !isWordChar d
  | none => true

/-- Scanner for `re.sub(r'\b' + re.escape(term) + r'\b', repl, s,
flags=re.IGNORECASE)` where `term` is a non-empty all-word-character
term.  `expd` renders the (already parsed) replacement template for a
given matched slice of the original string.  `prevW` records whether the
previously consumed character of the original string is a word character
(`false` at the start of the string); since the term starts with a word
character, the leading `\b` holds exactly when `prevW` is false, and the
trailing `\b` is `boundary_after` of what follows the match.  `skip`
consumes the tail of a match after its replacement has been emitted,
updating `prevW` along the way. -/
def sub_word_go (term : List Char) (expd : List Char → List Char) :
    Nat → Bool → List Char → List Char
  | _, _, [] => []
  | skip + 1, _, c :: cs => sub_word_go term expd skip (isWordChar c) cs
  | 0, prevW, c :: cs =>
    if ciPrefix term (c :: cs) && !prevW && boundary_after ((c :: cs).drop term.length) then
      expd ((c :: cs).take term.length) ++
        sub_word_go term expd (term.length - 1) (isWordChar c) cs
    else
      c :: sub_word_go term expd 0 (isWordChar c) cs

/-- The word-term branch of `clean_text` (src/app.py line 69), after the
replacement template has been parsed. -/
def sub_word (term : List Char) (expd : List Char → List Char) (s : List Char) : List Char :=
  sub_word_go term expd 0 false s

/-- An item of a parsed replacement template: a literal character, or a
reference to group 0 (the whole match) — the only group reference that
can survive parsing against the zero-group patterns `clean_text` builds. -/
inductive TItem where
  | lit (c : Char)
  | grp
deriving DecidableEq

def isOct (c : Char) : Bool := '0' ≤ c && c ≤ '7'

def octDigitVal (c : Char) : Nat := c.toNat - 48

/-- The `ESCAPES` table of re/_parser.py (minus `\b`..., keyed by the
character after the backslash): the seven control-character escapes and
the escaped backslash. -/
def escChar : Char → Option Char
  | 'a' => some '\x07'
  | 'b' => some '\x08'
  | 'f' => some '\x0c'
  | 'n' => some '\n'
  | 'r' => some '\r'
  | 't' => some '\t'
  | 'v' => some '\x0b'
  | '\\' => some '\\'
  | _ => none

def digitsVal (ds : List Char) : Nat :=
  ds.foldl (fun n c => n * 10 + (c.toNat - 48)) 0

def isIdentStart (c : Char) : Bool := c.isAlpha || c == '_'

def isIdentChar (c : Char) : Bool := c.isAlphanum || c == '_'

/-- `Tokenizer.getuntil(">", "group name")` inside `\g<...>`: the raw
characters up to the first `>`, and what follows it. -/
def getUntilGt : List Char → Except String (List Char × List Char)
  | [] => .error "missing >, unterminated name"
  | '>' :: rest => .ok ([], rest)
  | c :: rest =>
    match getUntilGt rest with
    | .ok (name, rem) => .ok (c :: name, rem)
    | .error e => .error e

/-- One `\g<name>` group reference, parsed against a pattern with zero
capture groups and no named groups (`parse_template`, re/_parser.py
lines 1022-1051).  Only `\g<0>` (any all-`0` decimal name) succeeds. -/
def parseGroupRef (name : List Char) : Except String TItem :=
  if name.all (·.isDigit) then
    if digitsVal name = 0 then .ok .grp
    else .error "invalid group reference"
  else if (match name.head? with
           | some c => isIdentStart c
           | none => false) && name.all isIdentChar then
    .error "unknown group name"
  else
    .error "bad character in group name"

/-- CPython's `parse_template` (re/_parser.py lines 997-1084) specialised
to a zero-group pattern, fuelled by the length of the template (each
step consumes at least one character, so the fuel is never exhausted).
The cases after a backslash are: `\g<...>` group reference; `\0` plus up
to two octal digits, an octal character escape; `\1`-`\9` plus at most
one more digit, a group reference (always invalid here since there are
no groups), except that three octal digits form an octal escape; the
seven control-character escapes and `\\`; any other ASCII letter is a
`bad escape` error; any other character keeps the backslash literally.
A trailing lone backslash is a `bad escape (end of pattern)` error. -/
def parse_template_go : Nat → List Char → Except String (List TItem)
  | _, [] => .ok []
  | 0, _ :: _ => .error "out of fuel"
  | fuel + 1, c0 :: rest =>
    if c0 == '\\' then
    match rest with
    | [] => .error "bad escape (end of pattern)"
    | 'g' :: rest1 =>
      match rest1 with
      | '<' :: rest2 =>
        match getUntilGt rest2 with
        | .error e => .error e
        | .ok ([], _) => .error "missing group name"
        | .ok (name, rem) =>
          match parseGroupRef name with
          | .error e => .error e
          | .ok item =>
            match parse_template_go fuel rem with
            | .ok items => .ok (item :: items)
            | .error e => .error e
      | _ => .error "missing <"
    | '0' :: rest1 =>
      let vr : Nat × List Char :=
        match rest1 with
        | d1 :: d2 :: rest2 =>
          if isOct d1 then
            if isOct d2 then (octDigitVal d1 * 8 + octDigitVal d2, rest2)
            else (octDigitVal d1, d2 :: rest2)
          else (0, d1 :: d2 :: rest2)
        | [d1] => if isOct d1 then (octDigitVal d1, []) else (0, [d1])
        | [] => (0, [])
      match parse_template_go fuel vr.2 with
      | .ok items => .ok (.lit (Char.ofNat vr.1) :: items)
      | .error e => .error e
    | d :: rest1 =>
      if '1' ≤ d && d ≤ '9' then
        match rest1 with
        | d2 :: d3 :: rest2 =>
          if d2.isDigit then
            if isOct d && isOct d2 && isOct d3 then
              let v := octDigitVal d * 64 + octDigitVal d2 * 8 + octDigitVal d3
              if v > 255 then .error "octal escape value outside of range 0-0o377"
              else
                match parse_template_go fuel rest2 with
                | .ok items => .ok (.lit (Char.ofNat v) :: items)
                | .error e => .error e
            else .error "invalid group reference"
          else .error "invalid group reference"
        | _ :: [] => .error "invalid group reference"
        | [] => .error "invalid group reference"
      else
        match escChar d with
        | some e =>
          match parse_template_go fuel rest1 with
          | .ok items => .ok (.lit e :: items)
          | .error e2 => .error e2
        | none =>
          if d.isAlpha then .error "bad escape"
          else
            match parse_template_go fuel rest1 with
            | .ok items => .ok (.lit '\\' :: .lit d :: items)
            | .error e => .error e
    else
      match parse_template_go fuel rest with
      | .ok items => .ok (.lit c0 :: items)
      | .error e => .error e

def parse_template (repl : List Char) : Except String (List TItem) :=
  parse_template_go repl.length repl

/-- `expand_template`: render a parsed template for the matched slice
`matched` of the subject string (group 0). -/
def render_template (items : List TItem) (matched : List Char) : List Char :=
  items.flatMap fun
    | .lit c => [c]
    | .grp => matched

/-- `re.sub(r'\s+', ' ', s)`: every maximal run of whitespace becomes a
single space. -/
def collapseWS : List Char → List Char
  | [] => []
  | [c] => if pyIsSpace c then [' '] else [c]
  | c :: d :: cs =>
    if pyIsSpace c && pyIsSpace d then collapseWS (d :: cs)
    else (if pyIsSpace c then ' ' else c) :: collapseWS (d :: cs)

/-- `str.strip()`: drop leading and trailing whitespace. -/
def pyStrip (s : List Char) : List Char :=
  (((s.dropWhile pyIsSpace).reverse).dropWhile pyIsSpace).reverse

/-- `str.split()` with no argument: maximal runs of non-whitespace
characters, empties dropped.  `cur` accumulates the current word in
reverse. -/
def pySplitGo (cur : List Char) : List Char → List (List Char)
  | [] => if cur.isEmpty then [] else [cur.reverse]
  | c :: cs =>
    if pyIsSpace c then
      if cur.isEmpty then pySplitGo [] cs
      else cur.reverse :: pySplitGo [] cs
    else pySplitGo (c :: cur) cs

def pySplit (s : List Char) : List (List Char) := pySplitGo [] s

/-- `str.isupper()` at ASCII precision: at least one cased (here: ASCII
letter) character, and every cased character upper-case. -/
def pyIsUpperStr (w : List Char) : Bool :=
  w.any (·.isAlpha) && w.all (fun c => !c.isAlpha || c.isUpper)

/-- `str.lower()` at ASCII precision. -/
def pyLowerStr (w : List Char) : List Char := w.map Char.toLower

/-- The per-word step of the casing pass (src/app.py lines 87-92): keep a
fully upper-case word, lower-case everything else. -/
def fixWord (w : List Char) : List Char :=
  if pyIsUpperStr w then w else pyLowerStr w

/-- `" ".join(words)`. -/
def joinSpace : List (List Char) → List Char
  | [] => []
  | [w] => w
  | w :: ws => w ++ ' ' :: joinSpace ws

/-- `s = s[0].upper() + s[1:] if len(s) > 1 else s.upper()`
(src/app.py line 96): on a non-empty string both branches upper-case the
first character and keep the rest. -/
def capFirst : List Char → List Char
  | [] => []
  | c :: cs => c.toUpper :: cs

/-- `sorted(keys, key=len, reverse=True)`: stable insertion of `x` into a
descending-by-length list, before the first element that is not strictly
longer (so earlier-inserted keys of equal length stay first). -/
def insertDesc (x : List Char) : List (List Char) → List (List Char)
  | [] => [x]
  | y :: ys => if x.length < y.length then y :: insertDesc x ys else x :: y :: ys

def sortDesc : List (List Char) → List (List Char)
  | [] => []
  | x :: xs => insertDesc x (sortDesc xs)

/-- A ruleset: the ordered key/value pairs of the Python `replacements`
dict (insertion order, unique keys); a value may be `None`
(src/app.py line 64). -/
abbrev Ruleset := List (List Char × Option (List Char))

/-- `replacements[term] if replacements[term] is not None else ""`
(src/app.py line 64). -/
def lookup_term (replacements : Ruleset) (term : List Char) : List Char :=
  match replacements.find? (fun p => p.1 == term) with
  | some p => p.2.getD []
  | none => []

/-- `re.fullmatch(r'\w+', term)` (src/app.py line 66): non-empty,
all word characters. -/
def isWordTerm (term : List Char) : Bool :=
  !term.isEmpty && term.all isWordChar

/-- One iteration of the replacement loop (src/app.py lines 63-77): word
terms go through `re.sub` with a string replacement (whose template is
parsed, possibly raising), symbol terms through `re.sub` with the
`_repl_nonword` callable. -/
def apply_term (replacements : Ruleset) (s : List Char) (term : List Char) :
    Except String (List Char) :=
  let repl := lookup_term replacements term
  if isWordTerm term then
    match parse_template repl with
    | .error e => .error e
    | .ok items => .ok (sub_word term (render_template items) s)
  else
    .ok (sub_symbol term repl s)

/-- The whole replacement phase (src/app.py lines 62-77): each rule is a
full pass over the current string, in descending order of term length. -/
def subst_phase (t : List Char) (replacements : Ruleset) : Except String (List Char) :=
  (sortDesc (replacements.map Prod.fst)).foldlM (apply_term replacements) t

/-- `clean_text` (src/app.py lines 48-98).  `none` models a `None` (or
other falsy non-string) input; an `Except.error` models an uncaught
`re.error` from replacement-template parsing. -/
def clean_text (text : Option (List Char)) (replacements : Ruleset) :
    Except String (Option (List Char)) :=
  match text with
  | none => .ok none
  | some [] => .ok (some [])
  | some t =>
    match subst_phase t replacements with
    | .error e => .error e
    | .ok s0 =>
      let s1 := pyStrip (collapseWS s0)
      if s1.isEmpty then .ok (some s1)
      else .ok (some (capFirst (joinSpace ((pySplit s1).map fixWord))))

/-- Coerce a Lean string literal to the `List Char` the model uses. -/
def chars (s : String) : List Char := s.data

/-! Predicates used to state the specification's properties. -/

/-- `needle` occurs contiguously inside the second list. -/
def occursIn (needle : List Char) : List Char → Bool
  | [] => needle.isEmpty
  | c :: cs => needle.isPrefixOf (c :: cs) || occursIn needle cs

/-- No two adjacent whitespace characters. -/
def noTwoWS : List Char → Bool
  | [] => true
  | [_] => true
  | c :: d :: cs => !(pyIsSpace c && pyIsSpace d) && noTwoWS (d :: cs)

/-- Every whitespace character is the plain space `' '`. -/
def wsOnlySpace (s : List Char) : Bool :=
  s.all fun c => !pyIsSpace c || c == ' '

def headNotWS (s : List Char) : Bool :=
  match s.head? with
  | some c => !pyIsSpace c
  | none => true

def lastNotWS (s : List Char) : Bool :=
  match s.getLast? with
  | some c => !pyIsSpace c
  | none => true

/-- The whitespace invariant claimed of every output: no whitespace run
longer than a single `' '`, and no leading or trailing whitespace. -/
def okSpacing (s : List Char) : Bool :=
  noTwoWS s && wsOnlySpace s && headNotWS s && lastNotWS s

/-- A word contains no whitespace at all. -/
def spaceless (w : List Char) : Bool :=
  w.all fun c => !pyIsSpace c

/-- Upper-case the first character of the first word. -/
def capHead : List (List Char) → List (List Char)
  | [] => []
  | w :: ws => capFirst w :: ws

/-- `out` is `orig` up to the letter-case changes the casing pass can
make: kept, lower-cased, or upper-cased after one of those (the
first-character capitalisation). -/
def caseVariant (orig out : Char) : Prop :=
  out = orig ∨ out = orig.toLower ∨ out = orig.toUpper ∨ out = orig.toLower.toUpper

def noPairWS (a b : Char) : Prop := ¬(pyIsSpace a = true ∧ pyIsSpace b = true)

/-- Every replacement value of the ruleset is free of backslashes, i.e.
contains no regex-template escape at all. -/
def replsBackslashFree (R : Ruleset) : Bool :=
  R.all fun p => match p.2 with
    | some r => r.all fun c => !(c == '\\')
    | none => true

/-! Supporting lemmas. -/

theorem pyIsSpace_toUpper {c : Char} (h : pyIsSpace c = false) :
    pyIsSpace c.toUpper = false := by
  simp only [Char.toUpper]
  split
  · next hn =>
    obtain ⟨h1, h2⟩ := hn
    set n := c.toNat with hdef
    interval_cases n <;> decide
  · exact h

theorem mem_insertDesc {y x : List Char} {l : List (List Char)}
    (h : y ∈ insertDesc x l) : y = x ∨ y ∈ l := by
  induction l with
  | nil => simpa [insertDesc] using h
  | cons z zs ih =>
    simp only [insertDesc] at h
    split at h
    · rcases List.mem_cons.1 h with rfl | h
      · exact Or.inr (List.mem_cons_self _ _)
      · rcases ih h with rfl | h
        · exact Or.inl rfl
        · exact Or.inr (List.mem_cons_of_mem _ h)
    · rcases List.mem_cons.1 h with rfl | h
      · exact Or.inl rfl
      · exact Or.inr h

theorem pairwise_insertDesc {x : List Char} {l : List (List Char)}
    (h : List.Pairwise (fun a b : List Char => b.length ≤ a.length) l) :
    List.Pairwise (fun a b : List Char => b.length ≤ a.length) (insertDesc x l) := by
  induction l with
  | nil => simp [insertDesc]
  | cons z zs ih =>
    obtain ⟨hz, hzs⟩ := List.pairwise_cons.1 h
    simp only [insertDesc]
    split
    · next hlt =>
      refine List.pairwise_cons.2 ⟨?_, ih hzs⟩
      intro y hy
      rcases mem_insertDesc hy with rfl | hy
      · omega
      · exact hz y hy
    · next hge =>
      refine List.pairwise_cons.2 ⟨?_, h⟩
      intro y hy
      rcases List.mem_cons.1 hy with rfl | hy
      · omega
      · have := hz y hy
        omega

theorem sortDesc_sorted (keys : List (List Char)) :
    List.Pairwise (fun a b : List Char => b.length ≤ a.length) (sortDesc keys) := by
  induction keys with
  | nil => simp [sortDesc]
  | cons k ks ih => exact pairwise_insertDesc ih

theorem parse_template_go_noBS : ∀ {l : List Char}, '\\' ∉ l →
    parse_template_go l.length l = .ok (l.map TItem.lit) := by
  intro l h
  induction l with
  | nil => rfl
  | cons c cs ih =>
    have hc : (c == '\\') = false := by
      simp only [beq_eq_false_iff_ne, ne_eq]
      intro hcc
      exact h (hcc ▸ List.mem_cons_self c cs)
    have hcs : '\\' ∉ cs := fun hm => h (List.mem_cons_of_mem _ hm)
    simp only [List.length_cons, List.map_cons]
    rw [parse_template_go.eq_def]
    dsimp only
    simp only [hc, Bool.false_eq_true, if_false, ih hcs]

theorem parse_template_noBS {l : List Char} (h : '\\' ∉ l) :
    parse_template l = .ok (l.map TItem.lit) :=
  parse_template_go_noBS h

theorem lookup_noBS {R : Ruleset} (h : replsBackslashFree R = true) (term : List Char) :
    '\\' ∉ lookup_term R term := by
  unfold lookup_term
  cases hfind : R.find? (fun p => p.1 == term) with
  | none => simp
  | some p =>
    have hp : p ∈ R := List.mem_of_find?_eq_some hfind
    have := (List.all_eq_true.1 h) p hp
    cases hv : p.2 with
    | none => simp [hv]
    | some r =>
      rw [hv] at this
      simp only [hv, Option.getD_some]
      intro hm
      have := (List.all_eq_true.1 this) _ hm
      simp at this

theorem apply_term_ok {R : Ruleset} (h : replsBackslashFree R = true)
    (s term : List Char) : ∃ s', apply_term R s term = .ok s' := by
  simp only [apply_term]
  split
  · rw [parse_template_noBS (lookup_noBS h term)]
    exact ⟨_, rfl⟩
  · exact ⟨_, rfl⟩

theorem foldlM_apply_ok {R : Ruleset} (h : replsBackslashFree R = true) :
    ∀ (L : List (List Char)) (s : List Char),
      ∃ s', List.foldlM (apply_term R) s L = .ok s' := by
  intro L
  induction L with
  | nil => intro s; exact ⟨s, rfl⟩
  | cons term L ih =>
    intro s
    obtain ⟨s1, h1⟩ := apply_term_ok h s term
    obtain ⟨s2, h2⟩ := ih s1
    refine ⟨s2, ?_⟩
    rw [List.foldlM_cons, h1]
    simpa using h2

/-- `clean_text` on a non-empty input, unfolded past the
`if not text` guard. -/
theorem clean_text_cons (a : Char) (t : List Char) (R : Ruleset) :
    clean_text (some (a :: t)) R =
      match subst_phase (a :: t) R with
      | .error e => .error e
      | .ok s0 =>
        if (pyStrip (collapseWS s0)).isEmpty then .ok (some (pyStrip (collapseWS s0)))
        else .ok (some (capFirst (joinSpace ((pySplit (pyStrip (collapseWS s0))).map fixWord)))) :=
  rfl

theorem pyIsSpace_toLower {c : Char} (h : pyIsSpace c = false) :
    pyIsSpace c.toLower = false := by
  simp only [Char.toLower]
  split
  · next hn =>
    obtain ⟨h1, h2⟩ := hn
    set n := c.toNat with hdef
    interval_cases n <;> decide
  · exact h

theorem spaceless_fixWord {w : List Char} (h : spaceless w = true) :
    spaceless (fixWord w) = true := by
  unfold fixWord
  split
  · exact h
  · unfold pyLowerStr spaceless
    rw [List.all_map]
    refine List.all_eq_true.2 fun c hc => ?_
    have := (List.all_eq_true.1 h) c hc
    simp only [Function.comp_apply, Bool.not_eq_true']
    simp only [Bool.not_eq_true'] at this
    exact pyIsSpace_toLower this

theorem fixWord_ne_nil {w : List Char} (h : w ≠ []) : fixWord w ≠ [] := by
  unfold fixWord
  split
  · exact h
  · simpa [pyLowerStr] using h

theorem pySplitGo_good : ∀ (s cur : List Char), spaceless cur = true →
    ∀ w ∈ pySplitGo cur s, w ≠ [] ∧ spaceless w = true := by
  intro s
  induction s with
  | nil =>
    intro cur hcur w hw
    unfold pySplitGo at hw
    split at hw
    · simp at hw
    · next hne =>
      rw [List.mem_singleton] at hw
      subst hw
      refine ⟨?_, by simpa [spaceless, List.all_reverse] using hcur⟩
      simp only [ne_eq, List.reverse_eq_nil_iff]
      intro hnil
      rw [hnil] at hne
      simp at hne
  | cons c cs ih =>
    intro cur hcur w hw
    unfold pySplitGo at hw
    split at hw
    · split at hw
      · exact ih [] rfl w hw
      · next hne =>
        rcases List.mem_cons.1 hw with rfl | hw
        · refine ⟨?_, by simpa [spaceless, List.all_reverse] using hcur⟩
          simp only [ne_eq, List.reverse_eq_nil_iff]
          intro hnil
          rw [hnil] at hne
          simp at hne
        · exact ih [] rfl w hw
    · next hc =>
      refine ih (c :: cur) ?_ w hw
      simp only [spaceless, List.all_cons, Bool.and_eq_true]
      exact ⟨by simp [hc], hcur⟩

theorem pySplit_good {s : List Char} : ∀ w ∈ pySplit s, w ≠ [] ∧ spaceless w = true :=
  pySplitGo_good s [] rfl

theorem noTwoWS_cons_of_nonspace {c : Char} {l : List Char}
    (hc : pyIsSpace c = false) (hl : noTwoWS l = true) : noTwoWS (c :: l) = true := by
  cases l with
  | nil => rfl
  | cons d l' =>
    unfold noTwoWS
    simp only [hc, Bool.false_and, Bool.not_false, Bool.true_and]
    exact hl

theorem mem_of_getLast?_eq : ∀ {l : List Char} {d : Char}, l.getLast? = some d → d ∈ l := by
  intro l
  induction l with
  | nil => intro d h; simp at h
  | cons c l' ih =>
    intro d h
    cases l' with
    | nil =>
      simp only [List.getLast?_singleton, Option.some.injEq] at h
      subst h
      exact List.mem_cons_self _ _
    | cons e l'' =>
      rw [List.getLast?_cons_cons] at h
      exact List.mem_cons_of_mem _ (ih h)

theorem noTwoWS_tail {c : Char} {l : List Char} (h : noTwoWS (c :: l) = true) :
    noTwoWS l = true := by
  cases l with
  | nil => rfl
  | cons d l' =>
    unfold noTwoWS at h
    rw [Bool.and_eq_true] at h
    exact h.2

theorem noTwoWS_append_spaceless : ∀ {w l : List Char}, spaceless w = true →
    noTwoWS l = true → noTwoWS (w ++ l) = true := by
  intro w
  induction w with
  | nil => intro l _ hl; simpa using hl
  | cons c w' ih =>
    intro l hw hl
    simp only [spaceless, List.all_cons, Bool.and_eq_true, Bool.not_eq_true'] at hw
    obtain ⟨hc, hw'⟩ := hw
    rw [List.cons_append]
    exact noTwoWS_cons_of_nonspace hc (ih (by simpa [spaceless] using hw') hl)

theorem joinSpace_ne_nil {ws : List (List Char)} (hne : ws ≠ [])
    (hgood : ∀ w ∈ ws, w ≠ []) : joinSpace ws ≠ [] := by
  cases ws with
  | nil => exact absurd rfl hne
  | cons w ws' =>
    cases ws' with
    | nil => exact hgood w (List.mem_cons_self _ _)
    | cons w2 ws'' =>
      unfold joinSpace
      simp only [ne_eq, List.append_eq_nil]
      intro hh
      exact hgood w (List.mem_cons_self _ _) hh.1

theorem headNotWS_of_spaceless_append {w l : List Char} (hw : spaceless w = true)
    (hne : w ≠ []) : headNotWS (w ++ l) = true := by
  cases w with
  | nil => exact absurd rfl hne
  | cons c w' =>
    simp only [spaceless, List.all_cons, Bool.and_eq_true, Bool.not_eq_true'] at hw
    simp [headNotWS, hw.1]

theorem okSpacing_joinSpace : ∀ {ws : List (List Char)},
    (∀ w ∈ ws, w ≠ [] ∧ spaceless w = true) → okSpacing (joinSpace ws) = true := by
  intro ws
  induction ws with
  | nil => intro _; rfl
  | cons w ws' ih =>
    intro hgood
    obtain ⟨hwne, hwsp⟩ := hgood w (List.mem_cons_self _ _)
    have hrest : ∀ v ∈ ws', v ≠ [] ∧ spaceless v = true :=
      fun v hv => hgood v (List.mem_cons_of_mem _ hv)
    cases ws' with
    | nil =>
      show okSpacing w = true
      unfold okSpacing
      have h1 : noTwoWS w = true := by
        clear hwne ih hgood hrest
        induction w with
        | nil => rfl
        | cons c w' ihw =>
          simp only [spaceless, List.all_cons, Bool.and_eq_true, Bool.not_eq_true'] at hwsp
          exact noTwoWS_cons_of_nonspace hwsp.1 (ihw (by simpa [spaceless] using hwsp.2))
      have h2 : wsOnlySpace w = true := by
        refine List.all_eq_true.2 fun c hc => ?_
        have := (List.all_eq_true.1 hwsp) c hc
        simp only [Bool.not_eq_true'] at this
        simp [this]
      have h3 : headNotWS w = true := by
        cases w with
        | nil => rfl
        | cons c w' =>
          simp only [spaceless, List.all_cons, Bool.and_eq_true, Bool.not_eq_true'] at hwsp
          simp [headNotWS, hwsp.1]
      have h4 : lastNotWS w = true := by
        unfold lastNotWS
        cases hg : w.getLast? with
        | none => rfl
        | some d =>
          have hd : d ∈ w := mem_of_getLast?_eq hg
          have := (List.all_eq_true.1 hwsp) d hd
          simpa using this
      simp [h1, h2, h3, h4]
    | cons w2 ws'' =>
      have hj := ih hrest
      unfold okSpacing at hj
      simp only [Bool.and_eq_true] at hj
      obtain ⟨⟨⟨hj1, hj2⟩, hj3⟩, hj4⟩ := hj
      show okSpacing (w ++ ' ' :: joinSpace (w2 :: ws'')) = true
      have hjoinne : joinSpace (w2 :: ws'') ≠ [] :=
        joinSpace_ne_nil (by simp) (fun v hv => (hrest v hv).1)
      unfold okSpacing
      have h1 : noTwoWS (w ++ ' ' :: joinSpace (w2 :: ws'')) = true := by
        refine noTwoWS_append_spaceless hwsp ?_
        cases hjj : joinSpace (w2 :: ws'') with
        | nil => rfl
        | cons j js =>
          unfold noTwoWS
          rw [hjj] at hj3
          simp only [headNotWS, List.head?_cons, Bool.not_eq_true'] at hj3
          simp only [hj3]
          rw [hjj] at hj1
          simpa using hj1
      have h2 : wsOnlySpace (w ++ ' ' :: joinSpace (w2 :: ws'')) = true := by
        unfold wsOnlySpace at hj2 ⊢
        rw [List.all_append, Bool.and_eq_true]
        refine ⟨?_, ?_⟩
        · refine List.all_eq_true.2 fun c hc => ?_
          have := (List.all_eq_true.1 hwsp) c hc
          simp only [Bool.not_eq_true'] at this
          simp [this]
        · rw [List.all_cons, Bool.and_eq_true]
          exact ⟨by decide, hj2⟩
      have h3 : headNotWS (w ++ ' ' :: joinSpace (w2 :: ws'')) = true :=
        headNotWS_of_spaceless_append hwsp hwne
      have h4 : lastNotWS (w ++ ' ' :: joinSpace (w2 :: ws'')) = true := by
        unfold lastNotWS at hj4 ⊢
        rw [List.getLast?_append]
        cases hjj : joinSpace (w2 :: ws'') with
        | nil => exact absurd hjj hjoinne
        | cons j js =>
          rw [hjj] at hj4
          rw [show (' ' :: j :: js).getLast? = (j :: js).getLast? from List.getLast?_cons_cons]
          cases hg : (j :: js).getLast? with
          | none => simp at hg
          | some d =>
            rw [hg] at hj4
            simpa [Option.or] using hj4
      simp [h1, h2, h3, h4]

theorem okSpacing_capFirst {s : List Char} (h : okSpacing s = true) :
    okSpacing (capFirst s) = true := by
  cases s with
  | nil => exact h
  | cons c cs =>
    unfold okSpacing at h ⊢
    simp only [Bool.and_eq_true] at h
    obtain ⟨⟨⟨h1, h2⟩, h3⟩, h4⟩ := h
    have hc : pyIsSpace c = false := by simpa [headNotWS] using h3
    have hcu : pyIsSpace c.toUpper = false := pyIsSpace_toUpper hc
    unfold capFirst
    have g1 : noTwoWS (c.toUpper :: cs) = true := by
      cases cs with
      | nil => rfl
      | cons d cs' =>
        unfold noTwoWS at h1 ⊢
        rw [Bool.and_eq_true] at h1 ⊢
        exact ⟨by simp [hcu], h1.2⟩
    have g2 : wsOnlySpace (c.toUpper :: cs) = true := by
      unfold wsOnlySpace at h2 ⊢
      rw [List.all_cons, Bool.and_eq_true] at h2 ⊢
      exact ⟨by simp [hcu], h2.2⟩
    have g3 : headNotWS (c.toUpper :: cs) = true := by simp [headNotWS, hcu]
    have g4 : lastNotWS (c.toUpper :: cs) = true := by
      cases cs with
      | nil => simp [lastNotWS, List.getLast?_singleton, hcu]
      | cons d cs' =>
        unfold lastNotWS at h4 ⊢
        rw [List.getLast?_cons_cons]
        rw [List.getLast?_cons_cons] at h4
        exact h4
    simp [g1, g2, g3, g4]

theorem noTwoWS_iff_chain' : ∀ {l : List Char}, noTwoWS l = true ↔ List.Chain' noPairWS l := by
  intro l
  induction l with
  | nil => simp [noTwoWS]
  | cons c cs ih =>
    cases cs with
    | nil => simp [noTwoWS, List.chain'_singleton]
    | cons d cs' =>
      unfold noTwoWS
      rw [Bool.and_eq_true, List.chain'_cons]
      constructor
      · intro ⟨h1, h2⟩
        refine ⟨?_, ih.1 h2⟩
        intro ⟨ha, hb⟩
        simp [ha, hb] at h1
      · intro ⟨h1, h2⟩
        refine ⟨?_, ih.2 h2⟩
        by_cases ha : pyIsSpace c = true
        · by_cases hb : pyIsSpace d = true
          · exact absurd ⟨ha, hb⟩ h1
          · simp [ha, hb]
        · simp [ha]

theorem noTwoWS_reverse {l : List Char} (h : noTwoWS l = true) :
    noTwoWS l.reverse = true := by
  rw [noTwoWS_iff_chain'] at h ⊢
  rw [List.chain'_reverse]
  exact List.Chain'.imp (fun a b hab => fun hp => hab ⟨hp.2, hp.1⟩) h

theorem noTwoWS_of_suffix : ∀ {x y : List Char}, x <:+ y → noTwoWS y = true →
    noTwoWS x = true := by
  intro x y hxy hy
  obtain ⟨p, rfl⟩ := hxy
  induction p with
  | nil => exact hy
  | cons c p' ih =>
    rw [List.cons_append] at hy
    exact ih (noTwoWS_tail hy)

theorem getLast?_of_suffix {x y : List Char} (h : x <:+ y) (hne : x ≠ []) :
    x.getLast? = y.getLast? := by
  obtain ⟨p, rfl⟩ := h
  rw [List.getLast?_append]
  cases hg : x.getLast? with
  | none => exact absurd (List.getLast?_eq_none_iff.1 hg) hne
  | some d => simp [Option.or]

theorem mem_of_mem_suffix {x y : List Char} {c : Char} (hc : c ∈ x) (h : x <:+ y) :
    c ∈ y := by
  obtain ⟨p, rfl⟩ := h
  exact List.mem_append_right p hc

theorem wsOnlySpace_collapseWS : ∀ t : List Char, wsOnlySpace (collapseWS t) = true := by
  intro t
  induction t with
  | nil => rfl
  | cons c cs ih =>
    cases cs with
    | nil =>
      unfold collapseWS wsOnlySpace
      split <;> simp_all
    | cons d cs' =>
      unfold collapseWS
      split
      · exact ih
      · unfold wsOnlySpace
        rw [List.all_cons, Bool.and_eq_true]
        refine ⟨?_, ih⟩
        split <;> simp_all

theorem collapseWS_head_nonspace {d : Char} {cs : List Char} (hd : pyIsSpace d = false) :
    (collapseWS (d :: cs)).head? = some d := by
  cases cs with
  | nil => simp [collapseWS, hd]
  | cons e cs' =>
    unfold collapseWS
    simp [hd]

theorem noTwoWS_collapseWS : ∀ t : List Char, noTwoWS (collapseWS t) = true := by
  intro t
  induction t with
  | nil => rfl
  | cons c cs ih =>
    cases cs with
    | nil =>
      unfold collapseWS
      split <;> rfl
    | cons d cs' =>
      unfold collapseWS
      split
      · exact ih
      · next hcd =>
        by_cases hc : pyIsSpace c = true
        · have hd : pyIsSpace d = false := by
            by_cases hdq : pyIsSpace d = true
            · simp [hc, hdq] at hcd
            · simpa using hdq
          rw [if_pos hc]
          cases hcol : collapseWS (d :: cs') with
          | nil => rfl
          | cons x xs =>
            have hh := @collapseWS_head_nonspace d cs' hd
            rw [hcol, List.head?_cons, Option.some.injEq] at hh
            subst hh
            have ht : noTwoWS (x :: xs) = true := hcol ▸ ih
            unfold noTwoWS
            rw [Bool.and_eq_true]
            refine ⟨?_, ht⟩
            simp [hd]
        · rw [if_neg hc]
          exact noTwoWS_cons_of_nonspace (by simpa using hc) ih

theorem okSpacing_strip_collapse (t : List Char) :
    okSpacing (pyStrip (collapseWS t)) = true := by
  have hn : noTwoWS (collapseWS t) = true := noTwoWS_collapseWS t
  have hw : wsOnlySpace (collapseWS t) = true := wsOnlySpace_collapseWS t
  unfold pyStrip
  set s := collapseWS t with hs
  set l1 := s.dropWhile pyIsSpace with hl1
  set x := l1.reverse.dropWhile pyIsSpace with hx
  have hsuf1 : l1 <:+ s := List.dropWhile_suffix _
  have hsuf2 : x <:+ l1.reverse := List.dropWhile_suffix _
  have hmem : ∀ c : Char, c ∈ x.reverse → c ∈ s := by
    intro c hc
    rw [List.mem_reverse] at hc
    have := mem_of_mem_suffix hc hsuf2
    rw [List.mem_reverse] at this
    exact mem_of_mem_suffix this hsuf1
  by_cases hxe : x = []
  · rw [hxe]
    rfl
  · have hxne : x ≠ [] := hxe
    unfold okSpacing
    have h1 : noTwoWS x.reverse = true :=
      noTwoWS_reverse (noTwoWS_of_suffix hsuf2 (noTwoWS_reverse (noTwoWS_of_suffix hsuf1 hn)))
    have h2 : wsOnlySpace x.reverse = true := by
      refine List.all_eq_true.2 fun c hc => ?_
      exact (List.all_eq_true.1 hw) c (hmem c hc)
    have h3 : headNotWS x.reverse = true := by
      unfold headNotWS
      rw [List.head?_reverse]
      rw [getLast?_of_suffix hsuf2 hxne, List.getLast?_reverse]
      have := List.head?_dropWhile_not pyIsSpace s
      rw [← hl1] at this
      cases hh : l1.head? with
      | none => rfl
      | some b =>
        rw [hh] at this
        simp [this]
    have h4 : lastNotWS x.reverse = true := by
      unfold lastNotWS
      rw [List.getLast?_reverse]
      have := List.head?_dropWhile_not pyIsSpace l1.reverse
      rw [← hx] at this
      cases hh : x.head? with
      | none => rfl
      | some b =>
        rw [hh] at this
        simp [this]
    simp [h1, h2, h3, h4]

theorem pySplitGo_ne_nil : ∀ (s cur : List Char), cur ≠ [] → pySplitGo cur s ≠ [] := by
  intro s
  induction s with
  | nil =>
    intro cur hcur
    unfold pySplitGo
    rw [if_neg (by simpa using hcur)]
    simp
  | cons c cs ih =>
    intro cur hcur
    unfold pySplitGo
    by_cases hc : pyIsSpace c = true
    · rw [if_pos hc, if_neg (by simpa using hcur)]
      simp
    · rw [if_neg hc]
      exact ih (c :: cur) (by simp)

theorem lastNotWS_tail {c : Char} {l : List Char} (h : lastNotWS (c :: l) = true) :
    lastNotWS l = true := by
  cases l with
  | nil => rfl
  | cons d l' =>
    unfold lastNotWS at h ⊢
    rw [List.getLast?_cons_cons] at h
    exact h

theorem joinSpace_pySplitGo : ∀ (s : List Char),
    noTwoWS s = true → wsOnlySpace s = true → lastNotWS s = true →
    (∀ cur : List Char, cur ≠ [] → joinSpace (pySplitGo cur s) = cur.reverse ++ s) ∧
    (headNotWS s = true → joinSpace (pySplitGo [] s) = s) := by
  intro s
  induction s with
  | nil =>
    intro _ _ _
    constructor
    · intro cur hcur
      unfold pySplitGo
      rw [if_neg (by simpa using hcur)]
      simp [joinSpace]
    · intro _
      rfl
  | cons c cs ih =>
    intro hn hw hl
    have hn' : noTwoWS cs = true := noTwoWS_tail hn
    have hw' : wsOnlySpace cs = true := by
      unfold wsOnlySpace at hw ⊢
      rw [List.all_cons, Bool.and_eq_true] at hw
      exact hw.2
    have hl' : lastNotWS cs = true := lastNotWS_tail hl
    obtain ⟨IH1, IH2⟩ := ih hn' hw' hl'
    by_cases hc : pyIsSpace c = true
    · have hceq : c = ' ' := by
        have := (List.all_eq_true.1 hw) c (List.mem_cons_self _ _)
        rw [hc] at this
        simpa using this
      cases cs with
      | nil =>
        exfalso
        unfold lastNotWS at hl
        simp only [List.getLast?_singleton] at hl
        rw [hc] at hl
        simp at hl
      | cons d cs' =>
        have hd : pyIsSpace d = false := by
          unfold noTwoWS at hn
          rw [Bool.and_eq_true] at hn
          rcases hn with ⟨hp, _⟩
          by_cases hdq : pyIsSpace d = true
          · rw [hc, hdq] at hp
            simp at hp
          · simpa using hdq
        have hsplit_ne : pySplitGo [] (d :: cs') ≠ [] := by
          unfold pySplitGo
          rw [if_neg (by simp [hd])]
          exact pySplitGo_ne_nil cs' [d] (by simp)
        have hIH2d : joinSpace (pySplitGo [] (d :: cs')) = d :: cs' :=
          IH2 (by simp [headNotWS, hd])
        constructor
        · intro cur hcur
          show joinSpace (pySplitGo cur (c :: d :: cs')) = cur.reverse ++ c :: d :: cs'
          unfold pySplitGo
          rw [if_pos hc, if_neg (by simpa using hcur)]
          cases hrest : pySplitGo [] (d :: cs') with
          | nil => exact absurd hrest hsplit_ne
          | cons wx wxs =>
            rw [hrest] at hIH2d
            show joinSpace (cur.reverse :: wx :: wxs) = cur.reverse ++ c :: d :: cs'
            have e1 : joinSpace (cur.reverse :: wx :: wxs) =
                cur.reverse ++ ' ' :: joinSpace (wx :: wxs) := rfl
            rw [e1, hIH2d, hceq]
        · intro hh
          exfalso
          simp only [headNotWS, List.head?_cons] at hh
          rw [hc] at hh
          simp at hh
    · constructor
      · intro cur hcur
        show joinSpace (pySplitGo cur (c :: cs)) = cur.reverse ++ c :: cs
        unfold pySplitGo
        rw [if_neg hc]
        rw [IH1 (c :: cur) (by simp)]
        simp
      · intro _
        show joinSpace (pySplitGo [] (c :: cs)) = c :: cs
        unfold pySplitGo
        rw [if_neg hc]
        rw [IH1 [c] (by simp)]
        simp

theorem joinSpace_pySplit {u : List Char} (h : okSpacing u = true) :
    joinSpace (pySplit u) = u := by
  unfold okSpacing at h
  simp only [Bool.and_eq_true] at h
  obtain ⟨⟨⟨h1, h2⟩, h3⟩, h4⟩ := h
  exact (joinSpace_pySplitGo u h1 h2 h4).2 h3

theorem forall₂_append_chars {R : Char → Char → Prop} :
    ∀ {a b c d : List Char}, List.Forall₂ R a b → List.Forall₂ R c d →
      List.Forall₂ R (a ++ c) (b ++ d) := by
  intro a b c d h1 h2
  induction h1 with
  | nil => simpa using h2
  | cons hx hxs ih => exact List.Forall₂.cons hx ih

theorem forall₂_cv0_fixWord (w : List Char) :
    List.Forall₂ (fun o c => c = o ∨ c = o.toLower) w (fixWord w) := by
  unfold fixWord
  split
  · exact List.forall₂_same.2 fun x _ => Or.inl rfl
  · unfold pyLowerStr
    rw [List.forall₂_map_right_iff]
    exact List.forall₂_same.2 fun x _ => Or.inr rfl

theorem forall₂_cv0_joinSpace : ∀ {ws ws' : List (List Char)},
    List.Forall₂ (List.Forall₂ (fun o c => c = o ∨ c = o.toLower)) ws ws' →
    List.Forall₂ (fun o c => c = o ∨ c = o.toLower) (joinSpace ws) (joinSpace ws') := by
  intro ws ws' h
  induction h with
  | nil => exact List.Forall₂.nil
  | @cons w w' ws1 ws1' hw hws ih =>
    cases hws with
    | nil => simpa using hw
    | @cons x x' l3 l4 hx hxs =>
      have e1 : joinSpace (w :: x :: l3) = w ++ ' ' :: joinSpace (x :: l3) := rfl
      have e2 : joinSpace (w' :: x' :: l4) = w' ++ ' ' :: joinSpace (x' :: l4) := rfl
      rw [e1, e2]
      exact forall₂_append_chars hw (List.Forall₂.cons (Or.inl rfl) ih)

theorem forall₂_cv_capFirst : ∀ {u out0 : List Char},
    List.Forall₂ (fun o c => c = o ∨ c = o.toLower) u out0 →
    List.Forall₂ caseVariant u (capFirst out0) := by
  intro u out0 h
  cases h with
  | nil => exact List.Forall₂.nil
  | @cons o c u' out' hc htail =>
    show List.Forall₂ caseVariant (o :: u') (c.toUpper :: out')
    refine List.Forall₂.cons ?_ (htail.imp ?_)
    · rcases hc with rfl | rfl
      · exact Or.inr (Or.inr (Or.inl rfl))
      · exact Or.inr (Or.inr (Or.inr rfl))
    · intro a b hab
      rcases hab with rfl | rfl
      · exact Or.inl rfl
      · exact Or.inr (Or.inl rfl)

theorem pySplitGo_cons (cur : List Char) (c : Char) (cs : List Char) :
    pySplitGo cur (c :: cs) =
      if pyIsSpace c then
        (if cur.isEmpty then pySplitGo [] cs else cur.reverse :: pySplitGo [] cs)
      else pySplitGo (c :: cur) cs := rfl

theorem pySplitGo_word : ∀ (w : List Char), spaceless w = true →
    ∀ (cur s : List Char), pySplitGo cur (w ++ s) = pySplitGo (w.reverse ++ cur) s := by
  intro w
  induction w with
  | nil => intro _ cur s; simp
  | cons c w' ih =>
    intro hw cur s
    simp only [spaceless, List.all_cons, Bool.and_eq_true, Bool.not_eq_true'] at hw
    rw [List.cons_append, pySplitGo_cons, if_neg (by simp [hw.1])]
    rw [ih (by simpa [spaceless] using hw.2)]
    simp

theorem pySplit_joinSpace : ∀ (ws : List (List Char)),
    (∀ w ∈ ws, w ≠ [] ∧ spaceless w = true) → pySplit (joinSpace ws) = ws := by
  intro ws
  induction ws with
  | nil => intro _; rfl
  | cons w ws' ih =>
    intro h
    obtain ⟨hwne, hwsp⟩ := h w (List.mem_cons_self _ _)
    have hrest := fun v hv => h v (List.mem_cons_of_mem _ hv)
    cases ws' with
    | nil =>
      show pySplit (joinSpace [w]) = [w]
      have e : joinSpace [w] = w := rfl
      rw [e]
      unfold pySplit
      calc pySplitGo [] w = pySplitGo [] (w ++ []) := by simp
        _ = pySplitGo (w.reverse ++ []) [] := pySplitGo_word w hwsp [] []
        _ = [w] := by
            unfold pySplitGo
            rw [if_neg (by simp [hwne])]
            simp
    | cons w2 ws'' =>
      have e : joinSpace (w :: w2 :: ws'') = w ++ ' ' :: joinSpace (w2 :: ws'') := rfl
      rw [e]
      unfold pySplit
      rw [pySplitGo_word w hwsp [] (' ' :: joinSpace (w2 :: ws''))]
      unfold pySplitGo
      rw [if_pos (by decide : pyIsSpace ' ' = true)]
      rw [if_neg (by simp [hwne])]
      have ihr := ih hrest
      unfold pySplit at ihr
      rw [ihr]
      simp

theorem capFirst_joinSpace_cons (w : List Char) (ws : List (List Char)) (hne : w ≠ []) :
    capFirst (joinSpace (w :: ws)) = joinSpace (capFirst w :: ws) := by
  cases w with
  | nil => exact absurd rfl hne
  | cons c w' => cases ws <;> rfl

theorem capFirst_ne_nil {w : List Char} (h : w ≠ []) : capFirst w ≠ [] := by
  cases w with
  | nil => exact absurd rfl h
  | cons c w' => simp [capFirst]

theorem spaceless_capFirst {w : List Char} (h : spaceless w = true) :
    spaceless (capFirst w) = true := by
  cases w with
  | nil => rfl
  | cons c w' =>
    unfold capFirst
    simp only [spaceless, List.all_cons, Bool.and_eq_true, Bool.not_eq_true'] at h ⊢
    exact ⟨pyIsSpace_toUpper h.1, h.2⟩

theorem pySplit_capFirst_joinSpace (ws : List (List Char))
    (hgood : ∀ w ∈ ws, w ≠ [] ∧ spaceless w = true) :
    pySplit (capFirst (joinSpace ws)) = capHead ws := by
  cases ws with
  | nil => rfl
  | cons w rest =>
    obtain ⟨hwne, hwsp⟩ := hgood w (List.mem_cons_self _ _)
    rw [capFirst_joinSpace_cons w rest hwne,
      pySplit_joinSpace (capFirst w :: rest) (by
        intro v hv
        rcases List.mem_cons.1 hv with rfl | hv
        · exact ⟨capFirst_ne_nil hwne, spaceless_capFirst hwsp⟩
        · exact hgood v (List.mem_cons_of_mem _ hv))]
    rfl

/-! The claims. -/

/-- C1, counterexample: on the claim's own test input, `clean_text` does
not produce the CAPITALIZE_EACH output `"OBD Camber Plus Or Minus 1.75"`;
it produces `"OBD camber plus or minus 1.75"`.  There is no configurable
casing policy in the code: `clean_text` takes no policy argument. -/
theorem claim1_counterexample :
    clean_text (some (chars "OBD Camber ± 1.75")) [(chars "±", some (chars "plus or minus"))] =
      .ok (some (chars "OBD camber plus or minus 1.75")) ∧
    chars "OBD camber plus or minus 1.75" ≠ chars "OBD Camber Plus Or Minus 1.75" :=
  ⟨rfl, by decide⟩

/-- C1, amended: the engine implements a single casing behaviour
(sentence-style: each whitespace-delimited word that is not fully
upper-case is lower-cased, then the first character of the whole string
is upper-cased); for input `"OBD Camber ± 1.75"` with ruleset
`{"±": "plus or minus"}` the output is `"OBD camber plus or minus 1.75"`,
with the acronym `"OBD"` preserved fully upper-case. -/
theorem claim1_amended :
    clean_text (some (chars "OBD Camber ± 1.75")) [(chars "±", some (chars "plus or minus"))] =
      .ok (some (chars "OBD camber plus or minus 1.75")) ∧
    (chars "OBD").isPrefixOf (chars "OBD camber plus or minus 1.75") = true :=
  ⟨rfl, by decide⟩

/-- C2, counterexample: the exemption set is computed from the
substituted text, not from the original raw input.  For input `"abc"`
(which contains no upper-case token) and ruleset `{"abc": "XYZ"}`, the
output is `"XYZ"`, a fully upper-case token that never appeared
upper-case in the original. -/
theorem claim2_counterexample :
    clean_text (some (chars "abc")) [(chars "abc", some (chars "XYZ"))] = .ok (some (chars "XYZ")) ∧
    pyIsUpperStr (chars "XYZ") = true ∧
    (pySplit (chars "abc")).all (fun w => !pyIsUpperStr w) = true :=
  ⟨rfl, by decide, by decide⟩

/-- C2, amended: the casing exemption is computed from the substituted
text and works on whitespace-delimited words: whenever the replacement
phase succeeds, the words of the output are exactly the words of the
whitespace-normalized substituted text, each kept verbatim when
`str.isupper` holds of it and lower-cased otherwise, with the first
word's initial character then upper-cased. -/
theorem claim2_amended (t : List Char) (R : Ruleset) (s0 : List Char)
    (ht : t ≠ []) (hs : subst_phase t R = .ok s0) :
    ∃ out, clean_text (some t) R = .ok (some out) ∧
      pySplit out = capHead ((pySplit (pyStrip (collapseWS s0))).map fixWord) ∧
      ∀ w ∈ pySplit (pyStrip (collapseWS s0)),
        (pyIsUpperStr w = true → fixWord w = w) ∧
        (pyIsUpperStr w = false → fixWord w = pyLowerStr w) := by
  have hfix : ∀ w : List Char,
      (pyIsUpperStr w = true → fixWord w = w) ∧
      (pyIsUpperStr w = false → fixWord w = pyLowerStr w) := by
    intro w
    constructor <;> intro hw <;> simp [fixWord, hw]
  cases t with
  | nil => exact absurd rfl ht
  | cons a t' =>
    by_cases he : (pyStrip (collapseWS s0)).isEmpty
    · refine ⟨pyStrip (collapseWS s0), ?_, ?_, fun w _ => hfix w⟩
      · rw [clean_text_cons, hs]
        dsimp only
        rw [if_pos he]
      · rw [List.isEmpty_iff.1 he]
        rfl
    · refine ⟨capFirst (joinSpace ((pySplit (pyStrip (collapseWS s0))).map fixWord)),
        ?_, ?_, fun w _ => hfix w⟩
      · rw [clean_text_cons, hs]
        dsimp only
        rw [if_neg he]
      · refine pySplit_capFirst_joinSpace _ ?_
        intro w hw
        obtain ⟨v, hv, rfl⟩ := List.mem_map.1 hw
        obtain ⟨hvne, hvsp⟩ := pySplit_good v hv
        exact ⟨fixWord_ne_nil hvne, spaceless_fixWord hvsp⟩

/-- C2, witness for the amended claim at the ruleset `{"abc": "XYZ"}`. -/
theorem claim2_witness :
    ∃ out, clean_text (some (chars "abc")) [(chars "abc", some (chars "XYZ"))] =
        .ok (some out) ∧
      pySplit out = capHead ((pySplit (pyStrip (collapseWS (chars "XYZ")))).map fixWord) ∧
      ∀ w ∈ pySplit (pyStrip (collapseWS (chars "XYZ"))),
        (pyIsUpperStr w = true → fixWord w = w) ∧
        (pyIsUpperStr w = false → fixWord w = pyLowerStr w) :=
  claim2_amended (chars "abc") [(chars "abc", some (chars "XYZ"))] (chars "XYZ")
    (by decide) rfl

/-- C3, counterexample: with an empty ruleset the output can differ from
the input beyond whitespace normalization: `"hello"` needs no whitespace
change at all, yet comes out as `"Hello"`. -/
theorem claim3_counterexample :
    clean_text (some (chars "hello")) [] = .ok (some (chars "Hello")) ∧
    pyStrip (collapseWS (chars "hello")) = chars "hello" ∧
    chars "Hello" ≠ chars "hello" :=
  ⟨rfl, by decide, by decide⟩

/-- C3, amended: with an empty ruleset the output is the
whitespace-collapsed/trimmed input further changed only by letter case:
character for character, each output character is the corresponding
character of the collapsed/trimmed input either kept, lower-cased,
upper-cased, or lower-then-upper-cased (the first character). -/
theorem claim3_amended (t : List Char) :
    ∃ out, clean_text (some t) [] = .ok (some out) ∧
      List.Forall₂ caseVariant (pyStrip (collapseWS t)) out := by
  cases t with
  | nil => exact ⟨[], rfl, List.Forall₂.nil⟩
  | cons a t' =>
    have hs : subst_phase (a :: t') [] = .ok (a :: t') := rfl
    by_cases he : (pyStrip (collapseWS (a :: t'))).isEmpty
    · refine ⟨pyStrip (collapseWS (a :: t')), ?_, ?_⟩
      · rw [clean_text_cons, hs]
        dsimp only
        rw [if_pos he]
      · rw [List.isEmpty_iff.1 he]
        exact List.Forall₂.nil
    · refine ⟨capFirst (joinSpace ((pySplit (pyStrip (collapseWS (a :: t')))).map fixWord)), ?_, ?_⟩
      · rw [clean_text_cons, hs]
        dsimp only
        rw [if_neg he]
      · have hok : okSpacing (pyStrip (collapseWS (a :: t'))) = true :=
          okSpacing_strip_collapse _
        have hjs : joinSpace (pySplit (pyStrip (collapseWS (a :: t')))) =
            pyStrip (collapseWS (a :: t')) := joinSpace_pySplit hok
        have h1 : List.Forall₂ (fun o c => c = o ∨ c = o.toLower)
            (joinSpace (pySplit (pyStrip (collapseWS (a :: t')))))
            (joinSpace ((pySplit (pyStrip (collapseWS (a :: t')))).map fixWord)) := by
          refine forall₂_cv0_joinSpace ?_
          rw [List.forall₂_map_right_iff]
          exact List.forall₂_same.2 fun w _ => forall₂_cv0_fixWord w
        rw [hjs] at h1
        exact forall₂_cv_capFirst h1

/-- C4, counterexample: a backslash in a word-term's replacement value is
interpreted as a regex replacement-template escape, not as literal data:
`{"Ab": "\d"}` raises (even when the term never matches, since `re.sub`
parses the template unconditionally), and `{"Ab": "\g<0>x"}` expands the
escape to the matched text instead of keeping it literally. -/
theorem claim4_counterexample :
    (∃ e, clean_text (some (chars "Ab")) [(chars "Ab", some (chars "\\d"))] = .error e) ∧
    (∃ e, clean_text (some (chars "zzz")) [(chars "Ab", some (chars "\\d"))] = .error e) ∧
    clean_text (some (chars "Ab")) [(chars "Ab", some (chars "\\g<0>x"))] = .ok (some (chars "Abx")) :=
  ⟨⟨"bad escape", rfl⟩, ⟨"bad escape", rfl⟩, rfl⟩

/-- C4, amended: terms are always treated literally, and `clean_text`
raises no exception for any input text and any ruleset whose replacement
values contain no backslash; only a backslash in a replacement value can
make it raise (or expand as a template). -/
theorem claim4_amended (text : Option (List Char)) (R : Ruleset)
    (h : replsBackslashFree R = true) : ∃ v, clean_text text R = .ok v := by
  cases text with
  | none => exact ⟨none, rfl⟩
  | some t =>
    cases t with
    | nil => exact ⟨some [], rfl⟩
    | cons a t' =>
      obtain ⟨s', hs⟩ := foldlM_apply_ok h (sortDesc (R.map Prod.fst)) (a :: t')
      unfold clean_text subst_phase
      dsimp only
      rw [hs]
      dsimp only
      split <;> exact ⟨_, rfl⟩

/-- C4, witness for the amended claim at a concrete backslash-free
ruleset and input. -/
theorem claim4_witness :
    replsBackslashFree [(chars "w/HD", some (chars "with Heavy Duty")), (chars "Fr", none)] = true ∧
    (∃ v, clean_text (some (chars "a w/HD b"))
        [(chars "w/HD", some (chars "with Heavy Duty")), (chars "Fr", none)] = .ok v) :=
  ⟨by decide, claim4_amended _ _ (by decide)⟩

/-- C5: ruleset terms are applied in descending order of character
length (the sorted key list is pairwise length-descending, and for the
claim's ruleset it is `["Dana 60", "Dana"]`), so the longest term wins:
`{"Dana 60": "D60", "Dana": "D"}` applied to `"Dana 60 Axle"` yields
`"D60 axle"`, which contains `"D60"` and no fragment `"D 60"`. -/
theorem claim5_longest_first :
    (∀ keys : List (List Char),
        List.Pairwise (fun a b : List Char => b.length ≤ a.length) (sortDesc keys)) ∧
    sortDesc (List.map Prod.fst
        [(chars "Dana 60", some (chars "D60")), (chars "Dana", some (chars "D"))]) =
      [chars "Dana 60", chars "Dana"] ∧
    clean_text (some (chars "Dana 60 Axle"))
        [(chars "Dana 60", some (chars "D60")), (chars "Dana", some (chars "D"))] =
      .ok (some (chars "D60 axle")) ∧
    occursIn (chars "D60") (chars "D60 axle") = true ∧
    occursIn (chars "D 60") (chars "D60 axle") = false :=
  ⟨sortDesc_sorted, by decide, rfl, by decide, by decide⟩

/-- C6, counterexample: the claim's expected output is wrong about the
casing pass: `{"Fr": "Front"}` applied to `"Frame Fr Axle"` yields
`"Frame front axle"`, not `"Frame Front Axle"`. -/
theorem claim6_counterexample :
    clean_text (some (chars "Frame Fr Axle")) [(chars "Fr", some (chars "Front"))] =
      .ok (some (chars "Frame front axle")) ∧
    chars "Frame front axle" ≠ chars "Frame Front Axle" :=
  ⟨rfl, by decide⟩

/-- C6, amended: a word term is substituted only at word boundaries: a
rule for `"Fr"` never fires inside `"Frame"` (for every backslash-free
replacement value, `"Frame"` comes through unchanged), and on
`"Frame Fr Axle"` only the standalone `"Fr"` is replaced, yielding
`"Frame front axle"` (the casing pass lower-cases the words and
re-capitalizes the first character of the string). -/
theorem claim6_amended :
    (∀ repl : List Char, '\\' ∉ repl →
      clean_text (some (chars "Frame")) [(chars "Fr", some repl)] = .ok (some (chars "Frame"))) ∧
    clean_text (some (chars "Frame Fr Axle")) [(chars "Fr", some (chars "Front"))] =
      .ok (some (chars "Frame front axle")) := by
  refine ⟨?_, rfl⟩
  intro repl hbs
  have happ : apply_term [(chars "Fr", some repl)] (chars "Frame") (chars "Fr") =
      .ok (chars "Frame") := by
    simp only [apply_term]
    rw [show lookup_term [(chars "Fr", some repl)] (chars "Fr") = repl from rfl]
    rw [if_pos (by decide : isWordTerm (chars "Fr") = true)]
    rw [parse_template_noBS hbs]
    rfl
  have hsub : subst_phase (chars "Frame") [(chars "Fr", some repl)] = .ok (chars "Frame") := by
    unfold subst_phase
    rw [show sortDesc (List.map Prod.fst [(chars "Fr", some repl)]) = [chars "Fr"] from rfl]
    rw [List.foldlM_cons, happ]
    rfl
  have e1 := clean_text_cons 'F' (chars "rame") [(chars "Fr", some repl)]
  rw [show ('F' :: chars "rame") = chars "Frame" from rfl] at e1
  rw [e1, hsub]
  rfl

/-- C6, witness for the universally quantified part of the amended
claim, at the replacement value `"Front"`. -/
theorem claim6_witness :
    clean_text (some (chars "Frame")) [(chars "Fr", some (chars "Front"))] =
      .ok (some (chars "Frame")) :=
  claim6_amended.1 (chars "Front") (by decide)

/-- C7: when a symbol term is substituted, the character following the
match is alphanumeric, and the replacement does not end in whitespace,
`_repl_nonword` emits the replacement followed by exactly one space;
concretely, `{"w/HD": "with Heavy Duty"}` applied to `"w/HDAxle"` yields
`"With heavy duty axle"`, with a space separating the replacement from
`"axle"`. -/
theorem claim7_symbol_spacing :
    (∀ (repl rest : List Char) (c : Char), rest.head? = some c → c.isAlphanum = true →
        (∀ d, repl.getLast? = some d → pyIsSpace d = false) →
        repl_nonword repl rest = repl ++ [' ']) ∧
    clean_text (some (chars "w/HDAxle")) [(chars "w/HD", some (chars "with Heavy Duty"))] =
      .ok (some (chars "With heavy duty axle")) ∧
    occursIn (chars "duty axle") (chars "With heavy duty axle") = true := by
  refine ⟨?_, rfl, by decide⟩
  intro repl rest c hhead halnum hlast
  have hne : (repl.getLast? == some ' ') = false := by
    cases hg : repl.getLast? with
    | none => rfl
    | some d =>
      have hd := hlast d hg
      have : d ≠ ' ' := by
        intro h
        subst h
        simp [pyIsSpace] at hd
      simp [this]
  unfold repl_nonword
  rw [hhead]
  dsimp only
  rw [halnum, hne]
  simp

/-- C7, witness: one concrete symbol-term match with an alphanumeric
follower and a replacement not ending in whitespace. -/
theorem claim7_witness :
    repl_nonword (chars "x") (chars "Axle") = chars "x" ++ [' '] :=
  claim7_symbol_spacing.1 (chars "x") (chars "Axle") 'A' rfl rfl
    (by
      intro d h
      simp only [chars] at h
      simp only [List.getLast?_singleton, Option.some.injEq] at h
      subst h
      decide)

/-- C8: for every ruleset and non-empty input text, whenever `clean_text`
returns a string it contains no whitespace run longer than one space
character (indeed every whitespace character in it is a single `' '`
with no two adjacent) and has no leading or trailing whitespace. -/
theorem claim8_whitespace_invariant (t : List Char) (R : Ruleset) (out : List Char)
    (ht : t ≠ []) (h : clean_text (some t) R = .ok (some out)) : okSpacing out = true := by
  cases t with
  | nil => exact absurd rfl ht
  | cons a t' =>
    rw [clean_text_cons] at h
    cases hs : subst_phase (a :: t') R with
    | error e =>
      rw [hs] at h
      simp at h
    | ok s0 =>
      rw [hs] at h
      dsimp only at h
      split at h
      · next he =>
        simp only [Except.ok.injEq, Option.some.injEq] at h
        subst h
        rw [List.isEmpty_iff.1 he]
        rfl
      · next he =>
        simp only [Except.ok.injEq, Option.some.injEq] at h
        subst h
        refine okSpacing_capFirst (okSpacing_joinSpace ?_)
        intro w hw
        obtain ⟨v, hv, rfl⟩ := List.mem_map.1 hw
        obtain ⟨hvne, hvsp⟩ := pySplit_good v hv
        exact ⟨fixWord_ne_nil hvne, spaceless_fixWord hvsp⟩

/-- C8, witness: a non-empty input with irregular whitespace, its
concrete output, and the invariant evaluated there. -/
theorem claim8_witness :
    chars "a  b" ≠ [] ∧ clean_text (some (chars "a  b")) [] = .ok (some (chars "A b")) ∧
    okSpacing (chars "A b") = true :=
  ⟨by decide, rfl, claim8_whitespace_invariant (chars "a  b") [] (chars "A b") (by decide) rfl⟩

/-- C9: absent or empty input short-circuits: for every ruleset, `None`
comes back as `None` and the empty string as the empty string, with no
substitution and no whitespace normalization performed. -/
theorem claim9_short_circuit (R : Ruleset) :
    clean_text none R = .ok none ∧ clean_text (some []) R = .ok (some []) :=
  ⟨rfl, rfl⟩

/-- C10: substitution is a sequence of full-string passes, so a later
(shorter) term can match inside the replacement text of an earlier rule:
`{"Dana 60": "Dana Sixty", "Dana": "Spicer"}` on `"Dana 60"` yields a
result containing `"Spicer"`, and `{"abc": "xy", "xy": "z"}` on `"abc"`
yields `"Z"` (versus `"Xy"` without the second rule), though `"xy"`
never occurs in the original input. -/
theorem claim10_sequential_passes :
    clean_text (some (chars "Dana 60"))
        [(chars "Dana 60", some (chars "Dana Sixty")), (chars "Dana", some (chars "Spicer"))] =
      .ok (some (chars "Spicer sixty")) ∧
    occursIn (chars "Spicer") (chars "Spicer sixty") = true ∧
    clean_text (some (chars "abc"))
        [(chars "abc", some (chars "xy")), (chars "xy", some (chars "z"))] =
      .ok (some (chars "Z")) ∧
    occursIn (chars "xy") (chars "abc") = false ∧
    clean_text (some (chars "abc")) [(chars "abc", some (chars "xy"))] = .ok (some (chars "Xy")) :=
  ⟨rfl, by decide, rfl, by decide, rfl⟩

end App
